import Mathlib

/-!
Verification of the ewok dynamic-membership simulator against its
natural-language specification.

Shallow embedding conventions:
* `Name` (a Rust `u64`) is a natural number; every bit operation explicitly
  addresses only the low 64 bits, indexed MSB-first as in the source
  (`bit i` is `1 << (63 - i)`).
* `Prefix` is embedded as `Pfx` (structure of `bitCount` and canonical
  `name`); Rust's custom `PartialEq` instance is embedded as `Pfx.peq`.
* `BTreeSet<Name>` becomes `Finset ℕ`; iterator equality of two sorted
  deduplicated sequences is set equality, and the derived `Ord` on
  `BTreeSet` is the lexicographic order on the ascending element lists,
  embedded as `lexLt` on `Finset.sort`.
* The content-addressed block store (`BlockId` = hash of block, with
  deduplicating insert) is embedded by identifying a `BlockId` with the
  `Block` it denotes, so `Blocks::insert`/`into_block` are identities.
* `assert!` failures (panics) are embedded as `Option`/`Except` failure.
-/

namespace Ewok

/-- Rust `u64::leading_zeros` scan, MSB-first: `lzGo x fuel i` returns the
first index `k ≥ i` (looking at bit `63 - k`) that is set, stopping after
`fuel` positions. -/
def lzGo (x : ℕ) : ℕ → ℕ → ℕ
  | 0, i => i
  | fuel + 1, i => if x.testBit (63 - i) then i else lzGo x fuel (i + 1)

/-- `u64::leading_zeros`: number of leading (most significant) zero bits of
the low 64 bits of `x`; `64` when they are all zero. -/
def leadingZeros64 (x : ℕ) : ℕ := lzGo x 64 0

/-- `Name::common_prefix`: `(self.0 ^ other.0).leading_zeros()`. -/
def commonPfx (a b : ℕ) : ℕ := leadingZeros64 (a ^^^ b)

/-- `Name::bit`: `true` if the `i`-th bit (MSB-first) is 1. -/
def bit64 (v i : ℕ) : Bool := v.testBit (63 - i)

/-- `Name::with_bit`: copy of `v` with the `i`-th (MSB-first) bit set to
`b`; unchanged if `i ≥ 64`. -/
def withBit (v i : ℕ) (b : Bool) : ℕ :=
  if 64 ≤ i then v
  else if b then v ||| 2 ^ (63 - i)
  else v &&& ((2 ^ 64 - 1) - 2 ^ (63 - i))

/-- `Name::with_flipped_bit`: copy of `v` with the `i`-th (MSB-first) bit
flipped; unchanged if `i ≥ 64`. -/
def withFlippedBit (v i : ℕ) : ℕ :=
  if 64 ≤ i then v else v ^^^ 2 ^ (63 - i)

/-- `Prefix`: a bit count together with the canonical name whose
trailing bits are zero. -/
structure Pfx where
  bitCount : ℕ
  name : ℕ
deriving DecidableEq

/-- `Prefix::is_compatible`: either prefix is a prefix of the other. -/
def Pfx.isCompatible (p q : Pfx) : Bool :=
  decide (p.bitCount ≤ commonPfx p.name q.name) ||
    decide (q.bitCount ≤ commonPfx p.name q.name)

/-- Rust `PartialEq` for `Prefix`: compatible with equal bit counts. -/
def Pfx.peq (p q : Pfx) : Bool :=
  p.isCompatible q && decide (p.bitCount = q.bitCount)

/-- `Prefix::matches`: the prefix is a prefix of the given name. -/
def Pfx.matches (p : Pfx) (n : ℕ) : Bool :=
  decide (p.bitCount ≤ commonPfx p.name n)

/-- `Prefix::pushed`: append one bit. -/
def Pfx.pushed (p : Pfx) (b : Bool) : Pfx :=
  { bitCount := p.bitCount + 1, name := withBit p.name p.bitCount b }

/-- `Prefix::popped`: drop the last bit (zeroing it in the name), or the
prefix itself when empty. -/
def Pfx.popped (p : Pfx) : Pfx :=
  if 0 < p.bitCount then
    { bitCount := p.bitCount - 1, name := withBit p.name (p.bitCount - 1) false }
  else p

/-- `Prefix::is_neighbour`: the other prefix differs in exactly one bit.
In the source `i` abbreviates `commonPfx p.name q.name` and `j` the
common prefix of the `i`-flipped name with `q.name`. -/
def Pfx.isNeighbour (p q : Pfx) : Bool :=
  if decide (p.bitCount ≤ commonPfx p.name q.name) ||
      decide (q.bitCount ≤ commonPfx p.name q.name) then false
  else
    decide (p.bitCount ≤ commonPfx (withFlippedBit p.name (commonPfx p.name q.name)) q.name) ||
      decide (q.bitCount ≤ commonPfx (withFlippedBit p.name (commonPfx p.name q.name)) q.name)

/-- `Block`: a prefix, a version and an ordered set of member names. -/
structure Block where
  pfx : Pfx
  version : ℕ
  members : Finset ℕ
deriving DecidableEq

/-- Lexicographic strict order on lists of naturals, as derived by Rust's
`Ord` for sequences. -/
def lexLt : List ℕ → List ℕ → Bool
  | [], [] => false
  | [], _ :: _ => true
  | _ :: _, [] => false
  | a :: as, b :: bs =>
    if a < b then true else if b < a then false else lexLt as bs

/-- The derived `Ord` comparison `self.members > other.members` on
`BTreeSet<Name>`: lexicographic on the ascending element sequences. -/
def membersGt (a b : Finset ℕ) : Bool :=
  lexLt (b.sort (· ≤ ·)) (a.sort (· ≤ ·))

/-- `Block::outranks`: `other` should be removed from the current blocks
when `self` is a current candidate. -/
def Block.outranks (c b : Block) : Bool :=
  if c.pfx.peq b.pfx then
    if decide (c.members.card ≠ b.members.card) then
      decide (b.members.card < c.members.card)
    else
      membersGt c.members b.members
  else
    c.pfx.isCompatible b.pfx && decide (c.pfx.bitCount < b.pfx.bitCount)

/-- `Blocks::compute_current_blocks`: keep the candidate blocks not
outranked by any candidate. -/
def computeCurrentBlocks (cand : Finset Block) : Finset Block :=
  cand.filter (fun b => ¬ ∃ c ∈ cand, c.outranks b = true)

/-- `is_quorum_of` (default, non-`fast` feature): intersect the voters with
the members, `assert_eq!` that no voter was outside the members (a panic,
embedded as `none`), then test for a strict majority. -/
def isQuorumOf (voters members : Finset ℕ) : Option Bool :=
  let validVoters := voters ∩ members
  if voters.card = validVoters.card then
    some (decide (members.card < validVoters.card * 2))
  else
    none

/-- `Block::is_admissible_after` (default, non-`fast` feature): higher
version, then the add/remove, split, or merge case. -/
def Block.isAdmissibleAfter (b o : Block) : Bool :=
  if b.version ≤ o.version then false
  else if b.pfx.peq o.pfx then
    decide (((b.members \ o.members) ∪ (o.members \ b.members)).card = 1)
  else if b.pfx.popped.peq o.pfx then
    decide (b.members = o.members.filter (fun n => b.pfx.matches n))
  else if o.pfx.popped.peq b.pfx then
    decide (o.members = b.members.filter (fun n => o.pfx.matches n))
  else false

/-! Basic lemmas about the prefix algebra. -/

theorem commonPfx_comm (a b : ℕ) : commonPfx a b = commonPfx b a := by
  unfold commonPfx
  rw [Nat.xor_comm]

theorem Pfx.bitCount_eq_of_peq {p q : Pfx} (h : p.peq q = true) :
    p.bitCount = q.bitCount := by
  simp only [Pfx.peq, Bool.and_eq_true, decide_eq_true_eq] at h
  exact h.2

theorem Pfx.peq_symm {p q : Pfx} (h : p.peq q = true) : q.peq p = true := by
  simp only [Pfx.peq, Pfx.isCompatible, Bool.and_eq_true, Bool.or_eq_true,
    decide_eq_true_eq] at h ⊢
  rw [commonPfx_comm q.name p.name]
  exact ⟨h.1.symm, h.2.symm⟩

theorem Pfx.popped_of_zero {p : Pfx} (h : p.bitCount = 0) : p.popped = p := by
  simp [Pfx.popped, h]

theorem Pfx.bitCount_popped (p : Pfx) : p.popped.bitCount = p.bitCount - 1 := by
  unfold Pfx.popped
  split
  · rfl
  · omega

theorem Pfx.peq_of_zero {p q : Pfx} (hp : p.bitCount = 0) (hq : q.bitCount = 0) :
    p.peq q = true := by
  simp [Pfx.peq, Pfx.isCompatible, hp, hq]

theorem Pfx.matches_of_zero {p : Pfx} (h : p.bitCount = 0) (n : ℕ) :
    p.matches n = true := by
  simp [Pfx.matches, h]

/-! ### C2: quorum -/

/-- The quorum predicate exactly as the claim words it: a strict majority
of the member set among the voters that are members. -/
def quorumSpec (voters members : Finset ℕ) : Prop :=
  members.card < (voters ∩ members).card * 2

/-- C2 as stated fails: when the voters are not a subset of the members the
function hits its `assert_eq!` (a panic) instead of returning, even at
inputs where the claimed majority condition holds. -/
theorem is_quorum_of_claim_counterexample :
    ¬ ((isQuorumOf {1, 2} {1} = some true) ↔ quorumSpec {1, 2} {1}) := by
  unfold quorumSpec
  decide

/-- C2 amended: under the precondition `voters ⊆ members` (which the
function's `assert_eq!` enforces), `is_quorum_of` returns normally, and
returns `true` iff `|V ∩ M| · 2 > |M|`. -/
theorem is_quorum_of_spec (voters members : Finset ℕ) (h : voters ⊆ members) :
    (isQuorumOf voters members).isSome = true ∧
      ((isQuorumOf voters members = some true) ↔ quorumSpec voters members) := by
  have hinter : voters ∩ members = voters := Finset.inter_eq_left.mpr h
  unfold isQuorumOf quorumSpec
  rw [hinter]
  simp

/-- Witness for C2's amended theorem at a concrete quorum. -/
theorem is_quorum_of_spec_witness :
    ({1, 2} : Finset ℕ) ⊆ {1, 2, 3} ∧
      ((isQuorumOf {1, 2} {1, 2, 3} = some true) ↔ quorumSpec {1, 2} {1, 2, 3}) :=
  ⟨by decide, (is_quorum_of_spec {1, 2} {1, 2, 3} (by decide)).2⟩

/-! ### C3: block admissibility -/

/-- Case (a) of the claim: same prefix, symmetric difference of size 1. -/
def admissibleA (b o : Block) : Prop :=
  b.pfx.peq o.pfx = true ∧ ((b.members \ o.members) ∪ (o.members \ b.members)).card = 1

/-- Case (b) of the claim: `b` is one half of a split of `o`. -/
def admissibleB (b o : Block) : Prop :=
  b.pfx.popped.peq o.pfx = true ∧ b.members = o.members.filter (fun n => b.pfx.matches n)

/-- Case (c) of the claim: `o` is one half of a split of `b` (merge). -/
def admissibleC (b o : Block) : Prop :=
  o.pfx.popped.peq b.pfx = true ∧ o.members = b.members.filter (fun n => o.pfx.matches n)

/-- The claim's stated admissibility: strictly higher version, and exactly
one of the three cases holds. -/
def admissibleSpec (b o : Block) : Prop :=
  o.version < b.version ∧
    ((admissibleA b o ∧ ¬ admissibleB b o ∧ ¬ admissibleC b o) ∨
      (¬ admissibleA b o ∧ admissibleB b o ∧ ¬ admissibleC b o) ∨
      (¬ admissibleA b o ∧ ¬ admissibleB b o ∧ admissibleC b o))

/-- C3: `is_admissible_after` returns true iff the version increases and
exactly one of the add/drop, split and merge cases holds. -/
theorem is_admissible_after_spec (b o : Block) :
    b.isAdmissibleAfter o = true ↔ admissibleSpec b o := by
  unfold Block.isAdmissibleAfter admissibleSpec
  by_cases hv : b.version ≤ o.version
  · simp only [if_pos hv]
    constructor
    · intro h
      exact absurd h (by simp)
    · rintro ⟨h, -⟩
      omega
  · rw [if_neg hv]
    have hv' : o.version < b.version := by omega
    by_cases hA : b.pfx.peq o.pfx = true
    · rw [if_pos hA]
      rcases Nat.eq_zero_or_pos b.pfx.bitCount with hz | hpos
      · -- both prefixes empty: the split/merge guards also hold, and
        -- reduce to equality of member sets
        have hzo : o.pfx.bitCount = 0 := (Pfx.bitCount_eq_of_peq hA) ▸ hz
        have hBg : b.pfx.popped.peq o.pfx = true := by
          rw [Pfx.popped_of_zero hz]; exact hA
        have hCg : o.pfx.popped.peq b.pfx = true := by
          rw [Pfx.popped_of_zero hzo]; exact Pfx.peq_symm hA
        have hBfilt : o.members.filter (fun n => b.pfx.matches n) = o.members := by
          apply Finset.filter_true_of_mem
          intro x _
          exact Pfx.matches_of_zero hz x
        have hCfilt : b.members.filter (fun n => o.pfx.matches n) = b.members := by
          apply Finset.filter_true_of_mem
          intro x _
          exact Pfx.matches_of_zero hzo x
        unfold admissibleA admissibleB admissibleC
        rw [hBfilt, hCfilt]
        by_cases hm : b.members = o.members
        · have hdiff : ((b.members \ o.members) ∪ (o.members \ b.members)).card = 0 := by
            rw [hm]
            simp
          constructor
          · intro h
            simp only [decide_eq_true_eq] at h
            omega
          · rintro ⟨-, ⟨⟨-, h1⟩, -⟩ | ⟨-, -, hnC⟩ | ⟨-, hnB, -⟩⟩
            · omega
            · exact absurd ⟨hCg, hm.symm⟩ hnC
            · exact absurd ⟨hBg, hm⟩ hnB
        · constructor
          · intro h
            simp only [decide_eq_true_eq] at h
            refine ⟨hv', Or.inl ⟨⟨hA, h⟩, fun hB => hm hB.2, fun hC => hm (hC.2.symm)⟩⟩
          · rintro ⟨-, ⟨⟨-, h1⟩, -⟩ | ⟨-, hB, -⟩ | ⟨-, -, hC⟩⟩
            · simpa using h1
            · exact absurd hB.2 hm
            · exact absurd hC.2.symm hm
      · -- nonempty prefixes: the split/merge guards are impossible
        have hbo : b.pfx.bitCount = o.pfx.bitCount := Pfx.bitCount_eq_of_peq hA
        have hBg : ¬ b.pfx.popped.peq o.pfx = true := by
          intro h
          have := Pfx.bitCount_eq_of_peq h
          rw [Pfx.bitCount_popped] at this
          omega
        have hCg : ¬ o.pfx.popped.peq b.pfx = true := by
          intro h
          have := Pfx.bitCount_eq_of_peq h
          rw [Pfx.bitCount_popped] at this
          omega
        unfold admissibleA admissibleB admissibleC
        constructor
        · intro h
          simp only [decide_eq_true_eq] at h
          exact ⟨hv', Or.inl ⟨⟨hA, h⟩, fun hB => hBg hB.1, fun hC => hCg hC.1⟩⟩
        · rintro ⟨-, ⟨⟨-, h1⟩, -⟩ | ⟨-, hB, -⟩ | ⟨-, -, hC⟩⟩
          · simpa using h1
          · exact absurd hB.1 hBg
          · exact absurd hC.1 hCg
    · rw [if_neg hA]
      by_cases hB : b.pfx.popped.peq o.pfx = true
      · rw [if_pos hB]
        -- the merge guard cannot hold at the same time
        have hbpos : 0 < b.pfx.bitCount := by
          rcases Nat.eq_zero_or_pos b.pfx.bitCount with hz | hpos
          · exact absurd (Pfx.popped_of_zero hz ▸ hB) hA
          · exact hpos
        have hob : o.pfx.bitCount = b.pfx.bitCount - 1 := by
          have := Pfx.bitCount_eq_of_peq hB
          rw [Pfx.bitCount_popped] at this
          omega
        have hCg : ¬ o.pfx.popped.peq b.pfx = true := by
          intro h
          rcases Nat.eq_zero_or_pos o.pfx.bitCount with hzo | hpo
          · rw [Pfx.popped_of_zero hzo] at h
            exact hA (Pfx.peq_symm h)
          · have := Pfx.bitCount_eq_of_peq h
            rw [Pfx.bitCount_popped] at this
            omega
        unfold admissibleA admissibleB admissibleC
        constructor
        · intro h
          simp only [decide_eq_true_eq] at h
          exact ⟨hv', Or.inr (Or.inl ⟨fun hA' => hA hA'.1, ⟨hB, h⟩, fun hC => hCg hC.1⟩)⟩
        · rintro ⟨-, ⟨hA', -⟩ | ⟨-, hB', -⟩ | ⟨-, -, hC'⟩⟩
          · exact absurd hA'.1 hA
          · simp [hB'.2]
          · exact absurd hC'.1 hCg
      · rw [if_neg hB]
        by_cases hC : o.pfx.popped.peq b.pfx = true
        · rw [if_pos hC]
          unfold admissibleA admissibleB admissibleC
          constructor
          · intro h
            simp only [decide_eq_true_eq] at h
            exact ⟨hv', Or.inr (Or.inr ⟨fun hA' => hA hA'.1, fun hB' => hB hB'.1, hC, h⟩)⟩
          · rintro ⟨-, ⟨hA', -⟩ | ⟨-, hB', -⟩ | ⟨-, -, -, hC'⟩⟩
            · exact absurd hA'.1 hA
            · exact absurd hB'.1 hB
            · simp [hC']
        · rw [if_neg hC]
          unfold admissibleA admissibleB admissibleC
          constructor
          · intro h
            exact absurd h (by simp)
          · rintro ⟨-, ⟨hA', -⟩ | ⟨-, hB', -⟩ | ⟨-, -, hC'⟩⟩
            · exact absurd hA'.1 hA
            · exact absurd hB'.1 hB
            · exact absurd hC'.1 hC

/-! ### C1: neighbour prefixes

Characterisation of the MSB-first leading-zeros scan, then of
`common_prefix`, then of `is_neighbour`. -/

theorem lzGo_ge (x : ℕ) : ∀ fuel i, i ≤ lzGo x fuel i := by
  intro fuel
  induction fuel with
  | zero => intro i; simp [lzGo]
  | succ f ih =>
    intro i
    unfold lzGo
    split
    · exact le_rfl
    · have := ih (i + 1)
      omega

theorem lzGo_le (x : ℕ) : ∀ fuel i, lzGo x fuel i ≤ i + fuel := by
  intro fuel
  induction fuel with
  | zero => intro i; simp [lzGo]
  | succ f ih =>
    intro i
    unfold lzGo
    split
    · omega
    · have := ih (i + 1)
      omega

theorem lzGo_agree (x : ℕ) :
    ∀ fuel i k, i ≤ k → k < lzGo x fuel i → x.testBit (63 - k) = false := by
  intro fuel
  induction fuel with
  | zero =>
    intro i k hik hk
    simp only [lzGo] at hk
    omega
  | succ f ih =>
    intro i k hik hk
    unfold lzGo at hk
    by_cases hbit : x.testBit (63 - i) = true
    · rw [if_pos hbit] at hk
      omega
    · rw [if_neg hbit] at hk
      rcases Nat.eq_or_lt_of_le hik with heq | hlt
      · subst heq
        exact Bool.not_eq_true _ ▸ hbit
      · exact ih (i + 1) k hlt hk

theorem lzGo_hit (x : ℕ) :
    ∀ fuel i, lzGo x fuel i < i + fuel → x.testBit (63 - lzGo x fuel i) = true := by
  intro fuel
  induction fuel with
  | zero =>
    intro i h
    simp only [lzGo] at h
    omega
  | succ f ih =>
    intro i h
    unfold lzGo at h ⊢
    by_cases hbit : x.testBit (63 - i) = true
    · rw [if_pos hbit]
      exact hbit
    · rw [if_neg hbit] at h ⊢
      exact ih (i + 1) (by omega)

theorem commonPfx_le (a b : ℕ) : commonPfx a b ≤ 64 := by
  have := lzGo_le (a ^^^ b) 64 0
  simpa [commonPfx, leadingZeros64] using this

/-- Boolean difference of a single bit, via the `xor` of the names. -/
theorem bit64_xor (a b k : ℕ) :
    (a ^^^ b).testBit (63 - k) = true ↔ bit64 a k ≠ bit64 b k := by
  unfold bit64
  rw [Nat.testBit_xor]
  revert a b
  intro a b
  cases a.testBit (63 - k) <;> cases b.testBit (63 - k) <;> simp

theorem commonPfx_agree {a b : ℕ} {k : ℕ} (h : k < commonPfx a b) :
    bit64 a k = bit64 b k := by
  have := lzGo_agree (a ^^^ b) 64 0 k (Nat.zero_le k) (by simpa [commonPfx, leadingZeros64] using h)
  by_contra hne
  rw [(bit64_xor a b k).mpr hne] at this
  exact Bool.false_ne_true this.symm

theorem commonPfx_hit {a b : ℕ} (h : commonPfx a b < 64) :
    bit64 a (commonPfx a b) ≠ bit64 b (commonPfx a b) := by
  have := lzGo_hit (a ^^^ b) 64 0 (by simpa [commonPfx, leadingZeros64] using h)
  exact (bit64_xor a b _).mp this

theorem commonPfx_ge {a b m : ℕ} (hm : m ≤ 64)
    (h : ∀ k, k < m → bit64 a k = bit64 b k) : m ≤ commonPfx a b := by
  by_contra hlt
  push_neg at hlt
  have h64 : commonPfx a b < 64 := lt_of_lt_of_le hlt hm
  exact commonPfx_hit h64 (h _ hlt)

theorem bit64_flip_self (v i : ℕ) (h : i < 64) :
    bit64 (withFlippedBit v i) i = !(bit64 v i) := by
  unfold withFlippedBit bit64
  rw [if_neg (by omega)]
  rw [Nat.testBit_xor, Nat.testBit_two_pow_self]
  cases v.testBit (63 - i) <;> simp

theorem bit64_flip_other (v : ℕ) {i k : ℕ} (hi : i < 64) (hk : k < 64) (hne : k ≠ i) :
    bit64 (withFlippedBit v i) k = bit64 v k := by
  unfold withFlippedBit bit64
  rw [if_neg (by omega)]
  rw [Nat.testBit_xor, Nat.testBit_two_pow_of_ne (by omega)]
  cases v.testBit (63 - k) <;> simp

/-- The neighbour relation as the claim words it, but over the first
`min bit_count` positions: the canonical names differ in exactly one
bit there. -/
def neighbourSpec (p q : Pfx) : Prop :=
  ((Finset.range (min p.bitCount q.bitCount)).filter
      (fun k => bit64 p.name k ≠ bit64 q.name k)).card = 1

/-- The neighbour relation exactly as claim C1 words it: same bit count
and exactly one differing bit among the first `bit_count` positions. -/
def neighbourClaim (p q : Pfx) : Prop :=
  p.bitCount = q.bitCount ∧
    ((Finset.range p.bitCount).filter
        (fun k => bit64 p.name k ≠ bit64 q.name k)).card = 1

/-- C1 as stated fails: `Prefix(1)` and `Prefix(00)` have different bit
counts, yet `is_neighbour` returns `true` for them. -/
theorem is_neighbour_claim_counterexample :
    ¬ ((Pfx.isNeighbour ⟨1, 2 ^ 63⟩ ⟨2, 0⟩ = true) ↔
        neighbourClaim ⟨1, 2 ^ 63⟩ ⟨2, 0⟩) := by
  unfold neighbourClaim
  decide

/-- C1 amended: for prefixes of at most 64 bits, `is_neighbour` returns
`true` iff the canonical names differ in exactly one bit among the first
`min(self.bit_count, other.bit_count)` positions. -/
theorem is_neighbour_spec (p q : Pfx) (hp : p.bitCount ≤ 64) (hq : q.bitCount ≤ 64) :
    p.isNeighbour q = true ↔ neighbourSpec p q := by
  unfold Pfx.isNeighbour neighbourSpec
  have hm64 : min p.bitCount q.bitCount ≤ 64 := le_trans (min_le_left _ _) hp
  constructor
  · intro h
    rw [Bool.ite_eq_true_distrib] at h
    by_cases hguard : (decide (p.bitCount ≤ commonPfx p.name q.name) ||
        decide (q.bitCount ≤ commonPfx p.name q.name)) = true
    · rw [if_pos hguard] at h
      exact absurd h (by simp)
    · rw [if_neg hguard] at h
      simp only [Bool.or_eq_true, decide_eq_true_eq, not_or, not_le] at hguard h
      obtain ⟨hip, hiq⟩ := hguard
      have him : commonPfx p.name q.name < min p.bitCount q.bitCount := lt_min hip hiq
      have hi64 : commonPfx p.name q.name < 64 := lt_of_lt_of_le him hm64
      have hj : min p.bitCount q.bitCount ≤
          commonPfx (withFlippedBit p.name (commonPfx p.name q.name)) q.name :=
        min_le_iff.mpr h
      have : (Finset.range (min p.bitCount q.bitCount)).filter
          (fun k => bit64 p.name k ≠ bit64 q.name k) = {commonPfx p.name q.name} := by
        ext k
        simp only [Finset.mem_filter, Finset.mem_range, Finset.mem_singleton]
        constructor
        · rintro ⟨hkm, hkdiff⟩
          by_contra hne
          rcases lt_or_gt_of_ne hne with hlt | hgt
          · exact hkdiff (commonPfx_agree hlt)
          · have hkj : k < commonPfx (withFlippedBit p.name (commonPfx p.name q.name)) q.name :=
              lt_of_lt_of_le hkm hj
            have := commonPfx_agree hkj
            rw [bit64_flip_other p.name hi64 (lt_of_lt_of_le hkm hm64) (by omega)] at this
            exact hkdiff this
        · intro hk
          subst hk
          exact ⟨him, commonPfx_hit hi64⟩
      rw [this, Finset.card_singleton]
  · intro h
    obtain ⟨d, hd⟩ := Finset.card_eq_one.mp h
    have hdmem : d ∈ (Finset.range (min p.bitCount q.bitCount)).filter
        (fun k => bit64 p.name k ≠ bit64 q.name k) := hd ▸ Finset.mem_singleton_self d
    simp only [Finset.mem_filter, Finset.mem_range] at hdmem
    obtain ⟨hdm, hddiff⟩ := hdmem
    have hd64 : d < 64 := lt_of_lt_of_le hdm hm64
    have honly : ∀ k, k < min p.bitCount q.bitCount →
        bit64 p.name k ≠ bit64 q.name k → k = d := by
      intro k hkm hkdiff
      have : k ∈ (Finset.range (min p.bitCount q.bitCount)).filter
          (fun k => bit64 p.name k ≠ bit64 q.name k) := by
        simp only [Finset.mem_filter, Finset.mem_range]
        exact ⟨hkm, hkdiff⟩
      rw [hd] at this
      exact Finset.mem_singleton.mp this
    -- the first differing position is exactly `d`
    have hcp_ge : d ≤ commonPfx p.name q.name := by
      apply commonPfx_ge (by omega)
      intro k hk
      by_contra hne
      have := honly k (lt_trans hk hdm) hne
      omega
    have hcp_le : commonPfx p.name q.name ≤ d := by
      by_contra hgt
      push_neg at hgt
      exact hddiff (commonPfx_agree hgt)
    have hcp : commonPfx p.name q.name = d := le_antisymm hcp_le hcp_ge
    rw [Bool.ite_eq_true_distrib, if_neg]
    · -- after the flip the names agree on the whole common window
      have hflip : ∀ k, k < min p.bitCount q.bitCount →
          bit64 (withFlippedBit p.name (commonPfx p.name q.name)) k = bit64 q.name k := by
        intro k hkm
        have hk64 : k < 64 := lt_of_lt_of_le hkm hm64
        by_cases hkd : k = d
        · subst hkd
          rw [hcp, bit64_flip_self p.name k hk64]
          revert hddiff
          cases bit64 p.name k <;> cases bit64 q.name k <;> simp
        · rw [hcp, bit64_flip_other p.name hd64 hk64 hkd]
          by_contra hne
          exact hkd (honly k hkm hne)
      have := commonPfx_ge hm64 hflip
      simp only [Bool.or_eq_true, decide_eq_true_eq]
      exact min_le_iff.mp this
    · simp only [Bool.or_eq_true, decide_eq_true_eq, not_or, not_le, hcp]
      exact ⟨lt_of_lt_of_le hdm (min_le_left _ _), lt_of_lt_of_le hdm (min_le_right _ _)⟩

/-- Witness for C1's amended theorem: `Prefix(00)` and `Prefix(01)` are
neighbours. -/
theorem is_neighbour_spec_witness :
    (2 : ℕ) ≤ 64 ∧ (Pfx.isNeighbour ⟨2, 0⟩ ⟨2, 2 ^ 62⟩ = true ↔ neighbourSpec ⟨2, 0⟩ ⟨2, 2 ^ 62⟩) :=
  ⟨by norm_num, is_neighbour_spec ⟨2, 0⟩ ⟨2, 2 ^ 62⟩ (by norm_num) (by norm_num)⟩

/-! ### C4: current-block selection by outranking -/

/-- Outranking exactly as claim C4 words it: same prefix with strictly
more members, or equally many and lexicographically greater members, or a
strictly shorter compatible prefix. -/
def outranksSpec (c b : Block) : Prop :=
  (c.pfx.peq b.pfx = true ∧
      (b.members.card < c.members.card ∨
        (c.members.card = b.members.card ∧ membersGt c.members b.members = true))) ∨
  (c.pfx.isCompatible b.pfx = true ∧ c.pfx.bitCount < b.pfx.bitCount)

theorem outranks_iff (c b : Block) : c.outranks b = true ↔ outranksSpec c b := by
  unfold Block.outranks outranksSpec
  by_cases hpeq : c.pfx.peq b.pfx = true
  · rw [if_pos hpeq]
    have hbc : ¬ c.pfx.bitCount < b.pfx.bitCount := by
      have := Pfx.bitCount_eq_of_peq hpeq
      omega
    by_cases hcard : c.members.card = b.members.card
    · rw [if_neg (by simpa using hcard)]
      constructor
      · intro h
        exact Or.inl ⟨hpeq, Or.inr ⟨hcard, h⟩⟩
      · rintro (⟨-, hlt | ⟨-, hgt⟩⟩ | ⟨-, hlt⟩)
        · omega
        · exact hgt
        · omega
    · rw [if_pos (by simpa using hcard)]
      constructor
      · intro h
        simp only [decide_eq_true_eq] at h
        exact Or.inl ⟨hpeq, Or.inl h⟩
      · rintro (⟨-, hlt | ⟨heq, -⟩⟩ | ⟨-, hlt⟩)
        · simpa using hlt
        · exact absurd heq hcard
        · omega
  · rw [if_neg hpeq]
    constructor
    · intro h
      simp only [Bool.and_eq_true, decide_eq_true_eq] at h
      exact Or.inr h
    · rintro (⟨hp, -⟩ | ⟨hcomp, hlt⟩)
      · exact absurd hp hpeq
      · simp [hcomp, hlt]

/-- C4: `compute_current_blocks` keeps exactly the candidate blocks that
no candidate outranks. -/
theorem compute_current_blocks_spec (cand : Finset Block) (b : Block) :
    b ∈ computeCurrentBlocks cand ↔
      b ∈ cand ∧ ∀ c ∈ cand, ¬ outranksSpec c b := by
  unfold computeCurrentBlocks
  rw [Finset.mem_filter]
  simp only [not_exists, not_and]
  constructor
  · rintro ⟨hb, hno⟩
    refine ⟨hb, fun c hc hspec => ?_⟩
    exact hno c hc ((outranks_iff c b).mpr hspec)
  · rintro ⟨hb, hno⟩
    refine ⟨hb, fun c hc hout => ?_⟩
    exact hno c hc ((outranks_iff c b).mp hout)

/-! ### C10: `remove_node` and `nodes_to_drop` -/

/-- `Block::remove_node`: the `assert!(members.remove(&removed))` panic is
embedded as `none`; on success the version is bumped and the member
deleted. -/
def Block.removeNode (b : Block) (removed : ℕ) : Option Block :=
  if removed ∈ b.members then
    some { pfx := b.pfx, version := b.version + 1, members := b.members.erase removed }
  else
    none

/-- `Node::nodes_to_drop`: members of the current block that are not us,
not connected, and not pending candidates. The node state is passed as our
name, connection set and candidate-key set. -/
def nodesToDrop (ourName : ℕ) (connections candidates : Finset ℕ)
    (currentBlock : Block) : Finset ℕ :=
  currentBlock.members.filter
    (fun peer => peer ≠ ourName ∧ peer ∉ connections ∧ peer ∉ candidates)

/-- C10: `remove_node` succeeds exactly on members, then returns the same
prefix, incremented version, and the members minus the removed node; and
every name produced by `nodes_to_drop` is a member of the block, so the
assertion cannot fire on those calls. -/
theorem remove_node_spec (b : Block) (n : ℕ) :
    ((b.removeNode n).isSome = true ↔ n ∈ b.members) ∧
      (n ∈ b.members →
        b.removeNode n =
          some { pfx := b.pfx, version := b.version + 1, members := b.members.erase n }) ∧
      (∀ ourName connections candidates,
        n ∈ nodesToDrop ourName connections candidates b → n ∈ b.members) := by
  refine ⟨?_, ?_, ?_⟩
  · unfold Block.removeNode
    split
    · simpa
    · simpa
  · intro h
    unfold Block.removeNode
    rw [if_pos h]
  · intro ourName connections candidates h
    exact (Finset.mem_filter.mp h).1

/-- Witness for C10 at a concrete block and member. -/
theorem remove_node_spec_witness :
    (5 : ℕ) ∈ ({3, 5} : Finset ℕ) ∧
      Block.removeNode { pfx := ⟨1, 0⟩, version := 7, members := {3, 5} } 5 =
        some { pfx := ⟨1, 0⟩, version := 8, members := ({3, 5} : Finset ℕ).erase 5 } :=
  ⟨by decide,
    (remove_node_spec { pfx := ⟨1, 0⟩, version := 7, members := {3, 5} } 5).2.1 (by decide)⟩

/-! ### C5: splitting -/

/-- The first half of a split: prefix extended by `0`, version bumped,
members partitioned by `pushed(false).matches`. -/
def splitHalf0 (b : Block) : Block :=
  { pfx := b.pfx.pushed false,
    version := b.version + 1,
    members := b.members.filter (fun n => (b.pfx.pushed false).matches n) }

/-- The second half of a split: prefix extended by `1`, version bumped,
members the complement half of the partition. -/
def splitHalf1 (b : Block) : Block :=
  { pfx := b.pfx.pushed true,
    version := b.version + 1,
    members := b.members.filter (fun n => ¬ (b.pfx.pushed false).matches n) }

/-- Modelled from the spec: `Block::should_split` is called from
`split_block` but its definition is not among the sources; the spec says
both halves of `b.members` under `prefix.push(0)` and `prefix.push(1)`
must have size at least `min_split_size`. -/
def Block.shouldSplit (b : Block) (minSplitSize : ℕ) : Bool :=
  decide (minSplitSize ≤ (b.members.filter (fun n => (b.pfx.pushed false).matches n)).card) &&
    decide (minSplitSize ≤ (b.members.filter (fun n => (b.pfx.pushed true).matches n)).card)

/-- Modelled from the spec: `neighbours_ok` filters the current blocks
with `Prefix::is_sibling_of_ancestor_of`, which is not among the sources;
the spec says every neighbouring-or-compatible current block must have
size at least `min_split_size`. The current set is carried as the list of
resolved blocks, ids being identified with blocks. -/
def neighboursOk (b : Block) (currentBlocks : List Block) (minSplitSize : ℕ) : Bool :=
  decide (∀ ob ∈ currentBlocks,
    (ob.pfx.isNeighbour b.pfx || ob.pfx.isCompatible b.pfx) = true →
      minSplitSize ≤ ob.members.card)

/-- `split_block`: if the section can split, the two votes from the block
to its halves; otherwise nothing. -/
def splitBlock (b : Block) (currentBlocks : List Block) (minSplitSize : ℕ) :
    List (Block × Block) :=
  if b.shouldSplit minSplitSize && neighboursOk b currentBlocks minSplitSize then
    [(b, splitHalf0 b), (b, splitHalf1 b)]
  else []

/-- `split_blocks`: split votes for every current block containing us. -/
def splitBlocks (currentBlocks : List Block) (ourName minSplitSize : ℕ) :
    List (Block × Block) :=
  (currentBlocks.filter (fun blk => decide (ourName ∈ blk.members))).flatMap
    (fun blk => splitBlock blk currentBlocks minSplitSize)

/-- The split condition as claim C5 words it. -/
def splitCondSpec (b : Block) (cur : List Block) (minSplitSize : ℕ) : Prop :=
  minSplitSize ≤ (b.members.filter (fun n => (b.pfx.pushed false).matches n)).card ∧
    minSplitSize ≤ (b.members.filter (fun n => (b.pfx.pushed true).matches n)).card ∧
    ∀ ob ∈ cur,
      (ob.pfx.isNeighbour b.pfx = true ∨ ob.pfx.isCompatible b.pfx = true) →
        minSplitSize ≤ ob.members.card

theorem mem_splitBlock_iff (b blk v : Block) (cur : List Block) (mss : ℕ) :
    (b, v) ∈ splitBlock blk cur mss ↔
      blk = b ∧ splitCondSpec b cur mss ∧ (v = splitHalf0 b ∨ v = splitHalf1 b) := by
  unfold splitBlock
  split
  · rename_i hcond
    simp only [Block.shouldSplit, neighboursOk, Bool.and_eq_true, decide_eq_true_eq,
      Bool.or_eq_true] at hcond
    simp only [List.mem_cons, List.mem_singleton, List.not_mem_nil, or_false,
      Prod.mk.injEq]
    constructor
    · rintro (⟨hb, hv⟩ | ⟨hb, hv⟩) <;> subst hb
      · exact ⟨rfl, ⟨hcond.1.1, hcond.1.2, hcond.2⟩, Or.inl hv⟩
      · exact ⟨rfl, ⟨hcond.1.1, hcond.1.2, hcond.2⟩, Or.inr hv⟩
    · rintro ⟨hb, -, hv | hv⟩ <;> subst hb
      · exact Or.inl ⟨rfl, hv⟩
      · exact Or.inr ⟨rfl, hv⟩
  · rename_i hcond
    simp only [List.not_mem_nil, false_iff, not_and]
    intro hb hspec
    subst hb
    intro hv
    apply hcond
    simp only [Block.shouldSplit, neighboursOk, Bool.and_eq_true, decide_eq_true_eq,
      Bool.or_eq_true]
    exact ⟨⟨hspec.1, hspec.2.1⟩, hspec.2.2⟩

/-- C5: `split_blocks` emits the votes `b → b0` and `b → b1` exactly when
`b` is a current block containing us, both halves reach
`min_split_size`, and every neighbouring-or-compatible current block does
too; the halves extend the prefix by one bit, bump the version, and
partition the members. -/
theorem split_block_spec (b v : Block) (cur : List Block) (ourName mss : ℕ) :
    ((b, v) ∈ splitBlocks cur ourName mss ↔
        b ∈ cur ∧ ourName ∈ b.members ∧ splitCondSpec b cur mss ∧
          (v = splitHalf0 b ∨ v = splitHalf1 b)) ∧
      (splitHalf0 b).pfx = b.pfx.pushed false ∧
      (splitHalf1 b).pfx = b.pfx.pushed true ∧
      (splitHalf0 b).version = b.version + 1 ∧
      (splitHalf1 b).version = b.version + 1 ∧
      (splitHalf0 b).members ∪ (splitHalf1 b).members = b.members ∧
      (splitHalf0 b).members ∩ (splitHalf1 b).members = ∅ := by
  refine ⟨?_, rfl, rfl, rfl, rfl, ?_, ?_⟩
  · unfold splitBlocks
    rw [List.mem_flatMap]
    constructor
    · rintro ⟨blk, hblk, hmem⟩
      rw [List.mem_filter, decide_eq_true_eq] at hblk
      obtain ⟨hb, hcond, hv⟩ := (mem_splitBlock_iff b blk v cur mss).mp hmem
      subst hb
      exact ⟨hblk.1, hblk.2, hcond, hv⟩
    · rintro ⟨hcur, hours, hcond, hv⟩
      refine ⟨b, ?_, (mem_splitBlock_iff b b v cur mss).mpr ⟨rfl, hcond, hv⟩⟩
      rw [List.mem_filter, decide_eq_true_eq]
      exact ⟨hcur, hours⟩
  · exact Finset.filter_union_filter_neg_eq _ b.members
  · exact Finset.disjoint_iff_inter_eq_empty.mp
      (Finset.disjoint_filter_filter_neg b.members b.members _)

/-! ### C6: the consistency check

The node table is passed as a list of pairs of a live node's name and the
resolved contents of its set of current blocks. -/

/-- All distinct current blocks across all live nodes (the union of the
per-prefix `BTreeSet`s built by the first loop). -/
def allCurrentBlocks (nodes : List (ℕ × Finset Block)) : Finset Block :=
  nodes.foldr (fun nb acc => nb.2 ∪ acc) ∅

/-- The keys of the node table: the live node names. -/
def liveNames (nodes : List (ℕ × Finset Block)) : Finset ℕ :=
  (nodes.map Prod.fst).toFinset

/-- The blocks recorded for one prefix (one entry of `sections`). -/
def blocksWithPfx (nodes : List (ℕ × Finset Block)) (p : Pfx) : Finset Block :=
  (allCurrentBlocks nodes).filter (fun bl => bl.pfx = p)

/-- The distinct prefixes of the recorded blocks (the keys of
`sections`). -/
def currentPrefixes (nodes : List (ℕ × Finset Block)) : Finset Pfx :=
  (allCurrentBlocks nodes).image Block.pfx

/-- `num_sections`. -/
def numSections (nodes : List (ℕ × Finset Block)) : ℕ :=
  (currentPrefixes nodes).card

/-- The prefixes inserted into `result`: those holding exactly one
block (the multi-block ones are skipped by `continue`). -/
def resultKeys (nodes : List (ℕ × Finset Block)) : Finset Pfx :=
  (currentPrefixes nodes).filter (fun p => (blocksWithPfx nodes p).card = 1)

/-- The returned map from prefix to block, as a set of pairs. -/
def resultMap (nodes : List (ℕ × Finset Block)) : Finset (Pfx × Block) :=
  ((allCurrentBlocks nodes).filter
      (fun bl => (blocksWithPfx nodes bl.pfx).card = 1)).image (fun bl => (bl.pfx, bl))

/-- The `failed` flag of `check_consistency`: multiple versions of a
prefix; a too-small singleton section (a quorum-sized one is allowed only
when there is a single section); a dead member; or two overlapping keys of
`result`. -/
def consistencyFailed (nodes : List (ℕ × Finset Block)) (minSectionSize : ℕ) : Bool :=
  decide (∃ p ∈ currentPrefixes nodes, 1 < (blocksWithPfx nodes p).card) ||
    decide (∃ bl ∈ allCurrentBlocks nodes, (blocksWithPfx nodes bl.pfx).card = 1 ∧
      ((numSections nodes = 1 ∧ bl.members.card * 2 ≤ minSectionSize) ∨
        (1 < numSections nodes ∧ bl.members.card < minSectionSize))) ||
    decide (∃ bl ∈ allCurrentBlocks nodes, (blocksWithPfx nodes bl.pfx).card = 1 ∧
      ∃ m ∈ bl.members, m ∉ liveNames nodes) ||
    decide (∃ p1 ∈ resultKeys nodes, ∃ p2 ∈ resultKeys nodes,
      p1 ≠ p2 ∧ p1.isCompatible p2 = true)

/-- `check_consistency`: `Err(())` when the flag is set, otherwise the
prefix-to-block map. -/
def checkConsistency (nodes : List (ℕ × Finset Block)) (minSectionSize : ℕ) :
    Except Unit (Finset (Pfx × Block)) :=
  if consistencyFailed nodes minSectionSize then .error () else .ok (resultMap nodes)

/-- Failure (a) of the claim: two distinct blocks share a prefix. -/
def specMultiple (nodes : List (ℕ × Finset Block)) : Prop :=
  ∃ b1 ∈ allCurrentBlocks nodes, ∃ b2 ∈ allCurrentBlocks nodes, b1 ≠ b2 ∧ b1.pfx = b2.pfx

/-- Failure (b) of the claim: two current prefixes are compatible. -/
def specOverlap (nodes : List (ℕ × Finset Block)) : Prop :=
  ∃ p1 ∈ currentPrefixes nodes, ∃ p2 ∈ currentPrefixes nodes,
    p1 ≠ p2 ∧ p1.isCompatible p2 = true

/-- Failure (c) of the claim: a section below `min_section_size` when
several sections exist, or at most `min_section_size / 2` when exactly
one exists. -/
def specTooSmall (nodes : List (ℕ × Finset Block)) (minSectionSize : ℕ) : Prop :=
  ∃ bl ∈ allCurrentBlocks nodes,
    (1 < numSections nodes ∧ bl.members.card < minSectionSize) ∨
      (numSections nodes = 1 ∧ bl.members.card ≤ minSectionSize / 2)

/-- Failure (d) of the claim: a member of a current block is not live. -/
def specDead (nodes : List (ℕ × Finset Block)) : Prop :=
  ∃ bl ∈ allCurrentBlocks nodes, ∃ m ∈ bl.members, m ∉ liveNames nodes

theorem multiple_iff (nodes : List (ℕ × Finset Block)) :
    (∃ p ∈ currentPrefixes nodes, 1 < (blocksWithPfx nodes p).card) ↔
      specMultiple nodes := by
  unfold specMultiple blocksWithPfx currentPrefixes
  constructor
  · rintro ⟨p, -, hcard⟩
    obtain ⟨b1, hb1, b2, hb2, hne⟩ := Finset.one_lt_card.mp hcard
    rw [Finset.mem_filter] at hb1 hb2
    exact ⟨b1, hb1.1, b2, hb2.1, hne, hb1.2.trans hb2.2.symm⟩
  · rintro ⟨b1, hb1, b2, hb2, hne, hpfx⟩
    refine ⟨b1.pfx, Finset.mem_image_of_mem _ hb1, Finset.one_lt_card.mpr ?_⟩
    exact ⟨b1, Finset.mem_filter.mpr ⟨hb1, rfl⟩, b2, Finset.mem_filter.mpr ⟨hb2, hpfx.symm⟩, hne⟩

theorem singleton_of_not_multiple {nodes : List (ℕ × Finset Block)}
    (h : ¬ specMultiple nodes) {bl : Block} (hbl : bl ∈ allCurrentBlocks nodes) :
    (blocksWithPfx nodes bl.pfx).card = 1 := by
  have hmem : bl ∈ blocksWithPfx nodes bl.pfx := by
    rw [blocksWithPfx, Finset.mem_filter]
    exact ⟨hbl, rfl⟩
  have hpos : 0 < (blocksWithPfx nodes bl.pfx).card :=
    Finset.card_pos.mpr ⟨bl, hmem⟩
  by_contra hne
  apply h
  rw [← multiple_iff]
  exact ⟨bl.pfx, Finset.mem_image_of_mem _ hbl, by omega⟩

theorem size_conv (c mss : ℕ) : c * 2 ≤ mss ↔ c ≤ mss / 2 :=
  (Nat.le_div_iff_mul_le (by omega)).symm

/-- C6: `check_consistency` fails exactly on the four conditions of the
claim, and otherwise returns the map sending each current prefix to its
unique block. -/
theorem check_consistency_spec (nodes : List (ℕ × Finset Block)) (mss : ℕ) :
    (checkConsistency nodes mss = .error () ↔
        specMultiple nodes ∨ specOverlap nodes ∨ specTooSmall nodes mss ∨ specDead nodes) ∧
      (¬ (specMultiple nodes ∨ specOverlap nodes ∨ specTooSmall nodes mss ∨ specDead nodes) →
        checkConsistency nodes mss = .ok (resultMap nodes) ∧
          ∀ p bl, (p, bl) ∈ resultMap nodes ↔ bl ∈ allCurrentBlocks nodes ∧ bl.pfx = p) := by
  have hflag : consistencyFailed nodes mss = true ↔
      specMultiple nodes ∨ specOverlap nodes ∨ specTooSmall nodes mss ∨ specDead nodes := by
    unfold consistencyFailed
    simp only [Bool.or_eq_true, decide_eq_true_eq]
    constructor
    · rintro (((hmulti | hsize) | hdead) | hcompat)
      · exact Or.inl ((multiple_iff nodes).mp hmulti)
      · obtain ⟨bl, hbl, -, hbad⟩ := hsize
        refine Or.inr (Or.inr (Or.inl ⟨bl, hbl, ?_⟩))
        rcases hbad with ⟨h1, h2⟩ | ⟨h1, h2⟩
        · exact Or.inr ⟨h1, (size_conv _ _).mp h2⟩
        · exact Or.inl ⟨h1, h2⟩
      · obtain ⟨bl, hbl, -, hdead'⟩ := hdead
        exact Or.inr (Or.inr (Or.inr ⟨bl, hbl, hdead'⟩))
      · obtain ⟨p1, hp1, p2, hp2, hcc⟩ := hcompat
        exact Or.inr (Or.inl ⟨p1, Finset.mem_of_mem_filter _ hp1,
          p2, Finset.mem_of_mem_filter _ hp2, hcc⟩)
    · intro h
      by_cases hmulti : specMultiple nodes
      · exact Or.inl (Or.inl (Or.inl ((multiple_iff nodes).mpr hmulti)))
      · rcases h with h | h | h | h
        · exact absurd h hmulti
        · obtain ⟨p1, hp1, p2, hp2, hne, hcc⟩ := h
          refine Or.inr ?_
          obtain ⟨b1, hb1, hb1p⟩ := Finset.mem_image.mp hp1
          obtain ⟨b2, hb2, hb2p⟩ := Finset.mem_image.mp hp2
          refine ⟨p1, Finset.mem_filter.mpr ⟨hp1, ?_⟩,
            p2, Finset.mem_filter.mpr ⟨hp2, ?_⟩, hne, hcc⟩
          · rw [← hb1p]
            exact singleton_of_not_multiple hmulti hb1
          · rw [← hb2p]
            exact singleton_of_not_multiple hmulti hb2
        · obtain ⟨bl, hbl, hbad⟩ := h
          refine Or.inl (Or.inl (Or.inr ⟨bl, hbl, singleton_of_not_multiple hmulti hbl, ?_⟩))
          rcases hbad with ⟨h1, h2⟩ | ⟨h1, h2⟩
          · exact Or.inr ⟨h1, h2⟩
          · exact Or.inl ⟨h1, (size_conv _ _).mpr h2⟩
        · obtain ⟨bl, hbl, hdead'⟩ := h
          exact Or.inl (Or.inr ⟨bl, hbl, singleton_of_not_multiple hmulti hbl, hdead'⟩)
  constructor
  · unfold checkConsistency
    constructor
    · intro h
      rw [← hflag]
      by_contra hfalse
      rw [if_neg hfalse] at h
      exact Except.noConfusion h
    · intro h
      rw [if_pos (hflag.mpr h)]
  · intro h
    have hok : consistencyFailed nodes mss ≠ true := fun hc => h (hflag.mp hc)
    refine ⟨by unfold checkConsistency; rw [if_neg hok], ?_⟩
    intro p bl
    have hmulti : ¬ specMultiple nodes := fun hc => h (Or.inl hc)
    unfold resultMap
    rw [Finset.mem_image]
    constructor
    · rintro ⟨b', hb', hpair⟩
      rw [Finset.mem_filter] at hb'
      obtain ⟨hpfx, hblk⟩ := Prod.mk.injEq .. ▸ hpair
      exact ⟨hblk ▸ hb'.1, hblk ▸ hpfx⟩
    · rintro ⟨hbl, hpfx⟩
      exact ⟨bl, Finset.mem_filter.mpr ⟨hbl, singleton_of_not_multiple hmulti hbl⟩,
        by rw [hpfx]⟩

/-- A concrete healthy node table for the C6 witness: one live node,
one singleton section. -/
def c6nodes : List (ℕ × Finset Block) :=
  [(1, {{ pfx := ⟨0, 0⟩, version := 0, members := {1} }})]

/-- Witness for C6: on the healthy table the check returns the map and
none of the four failures holds. -/
theorem check_consistency_spec_witness :
    ¬ (specMultiple c6nodes ∨ specOverlap c6nodes ∨ specTooSmall c6nodes 1 ∨
        specDead c6nodes) ∧
      (checkConsistency c6nodes 1 = .ok (resultMap c6nodes) ∧
        ∀ p bl, (p, bl) ∈ resultMap c6nodes ↔ bl ∈ allCurrentBlocks c6nodes ∧ bl.pfx = p) :=
  have hnot : ¬ (specMultiple c6nodes ∨ specOverlap c6nodes ∨ specTooSmall c6nodes 1 ∨
      specDead c6nodes) := by
    unfold specMultiple specOverlap specTooSmall specDead
    decide
  ⟨hnot, (check_consistency_spec c6nodes 1).2 hnot⟩

/-! ### C7 and C8: the network delay queue

A connection's queue is the list of `(step_sent, messages)` entries in
ascending step order (`BTreeMap` iteration). The probabilistic
`take_while` outcome is abstracted as an oracle `numDelivered` giving the
count of successful trials for each entry; messages are polymorphic, and
for the theorems a message is tagged with its send step and a
per-connection sequence number. -/

/-- `Network::receive_from_conn`: walk the entries whose step lies in
`[startStep, endStep)`; force-drain the entry at the start step when the
maximal delay has elapsed; otherwise deliver a random prefix of the
entry's queue, and stop at the first entry that keeps messages. -/
def receiveFromConn {α : Type} (numDelivered : ℕ → ℕ) (maxDelay startStep endStep : ℕ) :
    List (ℕ × List α) → List α × List (ℕ × List α)
  | [] => ([], [])
  | (s, msgs) :: rest =>
    if startStep ≤ s ∧ s < endStep then
      if s = startStep ∧ maxDelay ≤ endStep then
        (msgs ++ (receiveFromConn numDelivered maxDelay startStep endStep rest).1,
          (s, []) :: (receiveFromConn numDelivered maxDelay startStep endStep rest).2)
      else
        if (msgs.drop (msgs.length - min (numDelivered s) msgs.length)).isEmpty then
          (msgs.take (msgs.length - min (numDelivered s) msgs.length) ++
              (receiveFromConn numDelivered maxDelay startStep endStep rest).1,
            (s, msgs.drop (msgs.length - min (numDelivered s) msgs.length)) ::
              (receiveFromConn numDelivered maxDelay startStep endStep rest).2)
        else
          (msgs.take (msgs.length - min (numDelivered s) msgs.length),
            (s, msgs.drop (msgs.length - min (numDelivered s) msgs.length)) :: rest)
    else
      ((receiveFromConn numDelivered maxDelay startStep endStep rest).1,
        (s, msgs) :: (receiveFromConn numDelivered maxDelay startStep endStep rest).2)

/-- `Network::receive` restricted to one connection: the window is
`[step - max_delay, step)` with saturating subtraction. -/
def networkReceivePair {α : Type} (numDelivered : ℕ → ℕ) (maxDelay step : ℕ)
    (conn : List (ℕ × List α)) : List α × List (ℕ × List α) :=
  receiveFromConn numDelivered maxDelay (step - maxDelay) step conn

/-- Every message of an entry is tagged with the entry's send step. -/
def TaggedConn (conn : List (ℕ × List (ℕ × ℕ))) : Prop :=
  ∀ e ∈ conn, ∀ m ∈ e.2, m.1 = e.1

/-- Entries appear in strictly ascending step order. -/
def StepsSorted {α : Type} (conn : List (ℕ × List α)) : Prop :=
  List.Pairwise (fun e1 e2 => e1.1 < e2.1) conn

/-- Within an entry, sequence numbers strictly ascend (send order). -/
def SeqSorted (conn : List (ℕ × List (ℕ × ℕ))) : Prop :=
  ∀ e ∈ conn, List.Pairwise (fun m1 m2 => m1.2 < m2.2) e.2

/-- The `debug_assert` of `receive_from_conn`: entries older than the
window start have already been fully delivered. -/
def PreStartEmpty {α : Type} (startStep : ℕ) (conn : List (ℕ × List α)) : Prop :=
  ∀ e ∈ conn, e.1 < startStep → e.2 = []

/-- A message sent strictly before another, in the claim's sense: an
earlier step, or the same step and an earlier sequence number. -/
def sentBefore (m1 m2 : ℕ × ℕ) : Prop :=
  m1.1 < m2.1 ∨ (m1.1 = m2.1 ∧ m1.2 < m2.2)

theorem receiveFromConn_queue_steps {α : Type} (numDelivered : ℕ → ℕ)
    (maxDelay startStep endStep : ℕ) :
    ∀ conn : List (ℕ × List α),
      ((receiveFromConn numDelivered maxDelay startStep endStep conn).2).map Prod.fst =
        conn.map Prod.fst := by
  intro conn
  induction conn with
  | nil => rfl
  | cons e rest ih =>
    obtain ⟨s, msgs⟩ := e
    rw [receiveFromConn]
    split
    · split
      · simpa using ih
      · split
        · simpa using ih
        · simp
    · simpa using ih

theorem receiveFromConn_delivered_src {α : Type} (numDelivered : ℕ → ℕ)
    (maxDelay startStep endStep : ℕ) :
    ∀ (conn : List (ℕ × List α)) (m : α),
      m ∈ (receiveFromConn numDelivered maxDelay startStep endStep conn).1 →
        ∃ e ∈ conn, m ∈ e.2 ∧ startStep ≤ e.1 ∧ e.1 < endStep := by
  intro conn
  induction conn with
  | nil =>
    intro m hm
    simp [receiveFromConn] at hm
  | cons e rest ih =>
    obtain ⟨s, msgs⟩ := e
    intro m hm
    rw [receiveFromConn] at hm
    by_cases hrange : startStep ≤ s ∧ s < endStep
    · rw [if_pos hrange] at hm
      by_cases hforce : s = startStep ∧ maxDelay ≤ endStep
      · rw [if_pos hforce] at hm
        rcases List.mem_append.mp hm with hleft | hright
        · exact ⟨(s, msgs), List.mem_cons_self _ _, hleft, hrange⟩
        · obtain ⟨e', he', hmem, hr⟩ := ih m hright
          exact ⟨e', List.mem_cons_of_mem _ he', hmem, hr⟩
      · rw [if_neg hforce] at hm
        split at hm
        · rcases List.mem_append.mp hm with hleft | hright
          · exact ⟨(s, msgs), List.mem_cons_self _ _, List.take_subset _ _ hleft, hrange⟩
          · obtain ⟨e', he', hmem, hr⟩ := ih m hright
            exact ⟨e', List.mem_cons_of_mem _ he', hmem, hr⟩
        · exact ⟨(s, msgs), List.mem_cons_self _ _, List.take_subset _ _ hm, hrange⟩
    · rw [if_neg hrange] at hm
      obtain ⟨e', he', hmem, hr⟩ := ih m hm
      exact ⟨e', List.mem_cons_of_mem _ he', hmem, hr⟩

theorem receiveFromConn_force_drain {α : Type} (numDelivered : ℕ → ℕ)
    (maxDelay st en : ℕ) (hen : st < en) (hmd : maxDelay ≤ en) :
    ∀ conn : List (ℕ × List α), StepsSorted conn →
      ∀ ms, (st, ms) ∈ (receiveFromConn numDelivered maxDelay st en conn).2 → ms = [] := by
  intro conn
  induction conn with
  | nil =>
    intro _ ms hm
    simp [receiveFromConn] at hm
  | cons e rest ih =>
    obtain ⟨s0, msgs0⟩ := e
    intro hsort ms hm
    have hhead : ∀ e' ∈ rest, s0 < e'.1 := by
      intro e' he'
      exact (List.pairwise_cons.mp hsort).1 e' he'
    have hrest : StepsSorted rest := (List.pairwise_cons.mp hsort).2
    rw [receiveFromConn] at hm
    by_cases hs0 : s0 = st
    · subst hs0
      rw [if_pos ⟨le_rfl, hen⟩, if_pos ⟨rfl, hmd⟩] at hm
      rcases List.mem_cons.mp hm with hm | hm
      · exact (Prod.mk.injEq .. ▸ hm).2
      · exfalso
        have : s0 ∈ ((receiveFromConn numDelivered maxDelay s0 en rest).2).map Prod.fst :=
          List.mem_map_of_mem Prod.fst hm
        rw [receiveFromConn_queue_steps] at this
        obtain ⟨e', he', heq⟩ := List.mem_map.mp this
        have := hhead e' he'
        omega
    · by_cases hrange : st ≤ s0 ∧ s0 < en
      · rw [if_pos hrange, if_neg (fun hc => hs0 hc.1)] at hm
        split at hm
        · rcases List.mem_cons.mp hm with hm | hm
          · exact absurd (Prod.mk.injEq .. ▸ hm).1.symm hs0
          · exact ih hrest ms hm
        · rcases List.mem_cons.mp hm with hm | hm
          · exact absurd (Prod.mk.injEq .. ▸ hm).1.symm hs0
          · have := hhead (st, ms) hm
            omega
      · rw [if_neg hrange] at hm
        rcases List.mem_cons.mp hm with hm | hm
        · exact absurd (Prod.mk.injEq .. ▸ hm).1.symm hs0
        · exact ih hrest ms hm

theorem receiveFromConn_blocked (numDelivered : ℕ → ℕ) (maxDelay st en : ℕ) :
    ∀ conn : List (ℕ × List (ℕ × ℕ)), TaggedConn conn → StepsSorted conn →
      PreStartEmpty st conn →
      ∀ s ms, (s, ms) ∈ (receiveFromConn numDelivered maxDelay st en conn).2 → ms ≠ [] →
        ∀ m ∈ (receiveFromConn numDelivered maxDelay st en conn).1, m.1 ≤ s := by
  intro conn
  induction conn with
  | nil =>
    intro _ _ _ s ms hm
    simp [receiveFromConn] at hm
  | cons e rest ih =>
    obtain ⟨s0, msgs0⟩ := e
    intro htag hsort hpre s ms hm hne m hmdel
    have htag0 : ∀ m' ∈ msgs0, m'.1 = s0 := fun m' hm' => htag (s0, msgs0) (List.mem_cons_self _ _) m' hm'
    have htagrest : TaggedConn rest := fun e' he' => htag e' (List.mem_cons_of_mem _ he')
    have hhead : ∀ e' ∈ rest, s0 < e'.1 := (List.pairwise_cons.mp hsort).1
    have hrest : StepsSorted rest := (List.pairwise_cons.mp hsort).2
    have hprerest : PreStartEmpty st rest := fun e' he' => hpre e' (List.mem_cons_of_mem _ he')
    have hRsrc : ∀ m' ∈ (receiveFromConn numDelivered maxDelay st en rest).1,
        ∃ e' ∈ rest, m'.1 = e'.1 ∧ st ≤ e'.1 ∧ e'.1 < en := by
      intro m' hm'
      obtain ⟨e', he', hmem, hr1, hr2⟩ :=
        receiveFromConn_delivered_src numDelivered maxDelay st en rest m' hm'
      exact ⟨e', he', htagrest e' he' m' hmem, hr1, hr2⟩
    have hstepR : ∀ s' ms', (s', ms') ∈ (receiveFromConn numDelivered maxDelay st en rest).2 →
        s0 < s' := by
      intro s' ms' hm'
      have : s' ∈ ((receiveFromConn numDelivered maxDelay st en rest).2).map Prod.fst :=
        List.mem_map_of_mem Prod.fst hm'
      rw [receiveFromConn_queue_steps] at this
      obtain ⟨e', he', heq⟩ := List.mem_map.mp this
      exact heq ▸ hhead e' he'
    rw [receiveFromConn] at hm hmdel
    by_cases hrange : st ≤ s0 ∧ s0 < en
    · rw [if_pos hrange] at hm hmdel
      by_cases hforce : s0 = st ∧ maxDelay ≤ en
      · rw [if_pos hforce] at hm hmdel
        rcases List.mem_cons.mp hm with hm | hm
        · exact absurd (Prod.mk.injEq .. ▸ hm).2 hne
        · have hs : s0 < s := hstepR s ms hm
          rcases List.mem_append.mp hmdel with hmL | hmR
          · have := htag0 m hmL
            omega
          · exact ih htagrest hrest hprerest s ms hm hne m hmR
      · rw [if_neg hforce] at hm hmdel
        by_cases hempty : (msgs0.drop (msgs0.length - min (numDelivered s0) msgs0.length)).isEmpty = true
        · rw [if_pos hempty] at hm hmdel
          rcases List.mem_cons.mp hm with hm | hm
          · have hmse : ms = msgs0.drop (msgs0.length - min (numDelivered s0) msgs0.length) :=
              (Prod.mk.injEq .. ▸ hm).2
            rw [hmse] at hne
            exact absurd (List.isEmpty_iff.mp hempty) hne
          · have hs : s0 < s := hstepR s ms hm
            rcases List.mem_append.mp hmdel with hmL | hmR
            · have := htag0 m (List.take_subset _ _ hmL)
              omega
            · exact ih htagrest hrest hprerest s ms hm hne m hmR
        · rw [if_neg hempty] at hm hmdel
          have hmtag : m.1 = s0 := htag0 m (List.take_subset _ _ hmdel)
          rcases List.mem_cons.mp hm with hm | hm
          · have : s = s0 := (Prod.mk.injEq .. ▸ hm).1
            omega
          · have := hhead (s, ms) hm
            omega
    · rw [if_neg hrange] at hm hmdel
      rcases List.mem_cons.mp hm with hm | hm
      · obtain ⟨hs0s, hms⟩ := Prod.mk.injEq .. ▸ hm
        rcases Nat.lt_or_ge s0 st with hlt | hge
        · have := hpre (s0, msgs0) (List.mem_cons_self _ _) hlt
          rw [hms] at hne
          exact absurd this hne
        · have hen : en ≤ s0 := by
            rcases Nat.lt_or_ge s0 en with h1 | h1
            · exact absurd ⟨hge, h1⟩ hrange
            · exact h1
          obtain ⟨e', -, htagm, -, hlt'⟩ := hRsrc m hmdel
          omega
      · exact ih htagrest hrest hprerest s ms hm hne m hmdel

theorem receiveFromConn_delivered_sorted (numDelivered : ℕ → ℕ) (maxDelay st en : ℕ) :
    ∀ conn : List (ℕ × List (ℕ × ℕ)), TaggedConn conn → StepsSorted conn → SeqSorted conn →
      List.Pairwise sentBefore (receiveFromConn numDelivered maxDelay st en conn).1 := by
  intro conn
  induction conn with
  | nil =>
    intro _ _ _
    simp [receiveFromConn]
  | cons e rest ih =>
    obtain ⟨s0, msgs0⟩ := e
    intro htag hsort hseq
    have htag0 : ∀ m' ∈ msgs0, m'.1 = s0 := fun m' hm' => htag (s0, msgs0) (List.mem_cons_self _ _) m' hm'
    have htagrest : TaggedConn rest := fun e' he' => htag e' (List.mem_cons_of_mem _ he')
    have hhead : ∀ e' ∈ rest, s0 < e'.1 := (List.pairwise_cons.mp hsort).1
    have hrest : StepsSorted rest := (List.pairwise_cons.mp hsort).2
    have hseq0 : List.Pairwise (fun m1 m2 => m1.2 < m2.2) msgs0 :=
      hseq (s0, msgs0) (List.mem_cons_self _ _)
    have hseqrest : SeqSorted rest := fun e' he' => hseq e' (List.mem_cons_of_mem _ he')
    have hmsgs0 : List.Pairwise sentBefore msgs0 := by
      refine hseq0.imp_of_mem ?_
      intro a b ha hb hab
      exact Or.inr ⟨(htag0 a ha).trans (htag0 b hb).symm, hab⟩
    have hIH := ih htagrest hrest hseqrest
    have hcross : ∀ a ∈ msgs0, ∀ b ∈ (receiveFromConn numDelivered maxDelay st en rest).1,
        sentBefore a b := by
      intro a ha b hb
      obtain ⟨e', he', hmem, -, -⟩ :=
        receiveFromConn_delivered_src numDelivered maxDelay st en rest b hb
      have hbtag : b.1 = e'.1 := htagrest e' he' b hmem
      have := hhead e' he'
      have := htag0 a ha
      exact Or.inl (by omega)
    rw [receiveFromConn]
    by_cases hrange : st ≤ s0 ∧ s0 < en
    · rw [if_pos hrange]
      by_cases hforce : s0 = st ∧ maxDelay ≤ en
      · rw [if_pos hforce]
        exact List.pairwise_append.mpr ⟨hmsgs0, hIH, hcross⟩
      · rw [if_neg hforce]
        have htake : List.Pairwise sentBefore
            (msgs0.take (msgs0.length - min (numDelivered s0) msgs0.length)) :=
          hmsgs0.sublist (List.take_sublist _ _)
        split
        · refine List.pairwise_append.mpr ⟨htake, hIH, ?_⟩
          intro a ha b hb
          exact hcross a (List.take_subset _ _ ha) b hb
        · exact htake
    · rw [if_neg hrange]
      exact hIH

/-- C7: in one `receive` round on a connection, messages are delivered in
send order, and if any message from step `s` stays queued then nothing
sent later on that connection is delivered in the round. -/
theorem receive_in_order_spec (numDelivered : ℕ → ℕ) (maxDelay step : ℕ)
    (conn : List (ℕ × List (ℕ × ℕ)))
    (htag : TaggedConn conn) (hsort : StepsSorted conn) (hseq : SeqSorted conn)
    (hpre : PreStartEmpty (step - maxDelay) conn) :
    List.Pairwise sentBefore (networkReceivePair numDelivered maxDelay step conn).1 ∧
      ∀ s ms, (s, ms) ∈ (networkReceivePair numDelivered maxDelay step conn).2 → ms ≠ [] →
        ∀ m ∈ (networkReceivePair numDelivered maxDelay step conn).1, m.1 ≤ s :=
  ⟨receiveFromConn_delivered_sorted numDelivered maxDelay (step - maxDelay) step conn
      htag hsort hseq,
    receiveFromConn_blocked numDelivered maxDelay (step - maxDelay) step conn
      htag hsort hpre⟩

/-- Witness for C7 on a concrete two-entry queue. -/
theorem receive_in_order_spec_witness :
    TaggedConn [(3, [(3, 0), (3, 1)]), (4, [(4, 0)])] ∧
      StepsSorted [(3, [(3, 0), (3, 1)]), (4, [(4, 0)])] ∧
      SeqSorted [(3, [(3, 0), (3, 1)]), (4, [(4, 0)])] ∧
      PreStartEmpty 3 [(3, [(3, 0), (3, 1)]), (4, [(4, 0)])] ∧
      (List.Pairwise sentBefore
          (networkReceivePair (fun _ => 0) 2 5 [(3, [(3, 0), (3, 1)]), (4, [(4, 0)])]).1 ∧
        ∀ s ms,
          (s, ms) ∈ (networkReceivePair (fun _ => 0) 2 5 [(3, [(3, 0), (3, 1)]), (4, [(4, 0)])]).2 →
            ms ≠ [] →
            ∀ m ∈ (networkReceivePair (fun _ => 0) 2 5 [(3, [(3, 0), (3, 1)]), (4, [(4, 0)])]).1,
              m.1 ≤ s) :=
  ⟨by unfold TaggedConn; decide, by unfold StepsSorted; decide,
    by unfold SeqSorted; decide, by unfold PreStartEmpty; decide,
    receive_in_order_spec (fun _ => 0) 2 5 [(3, [(3, 0), (3, 1)]), (4, [(4, 0)])]
      (by unfold TaggedConn; decide) (by unfold StepsSorted; decide)
      (by unfold SeqSorted; decide) (by unfold PreStartEmpty; decide)⟩

/-- C8: a `receive(t)` round only delivers messages sent in the window
`[t - max_delay, t)` — so never at or before the send step — and the
round at `s + max_delay` leaves nothing queued at step `s`. -/
theorem receive_bounded_delay_spec (numDelivered : ℕ → ℕ) (maxDelay s : ℕ)
    (conn : List (ℕ × List (ℕ × ℕ)))
    (htag : TaggedConn conn) (hsort : StepsSorted conn) (hmd : 0 < maxDelay) :
    (∀ t, ∀ m ∈ (networkReceivePair numDelivered maxDelay t conn).1,
        t - maxDelay ≤ m.1 ∧ m.1 < t) ∧
      (∀ ms, (s, ms) ∈ (networkReceivePair numDelivered maxDelay (s + maxDelay) conn).2 →
        ms = []) := by
  constructor
  · intro t m hm
    obtain ⟨e, he, hmem, h1, h2⟩ :=
      receiveFromConn_delivered_src numDelivered maxDelay (t - maxDelay) t conn m hm
    have := htag e he m hmem
    omega
  · intro ms hm
    have hsub : s + maxDelay - maxDelay = s := by omega
    rw [networkReceivePair, hsub] at hm
    exact receiveFromConn_force_drain numDelivered maxDelay s (s + maxDelay)
      (by omega) (by omega) conn hsort ms hm

/-- Witness for C8 on a concrete queue. -/
theorem receive_bounded_delay_spec_witness :
    TaggedConn [(3, [(3, 0)])] ∧ StepsSorted [(3, [(3, 0)])] ∧ (0 : ℕ) < 2 ∧
      ((∀ t, ∀ m ∈ (networkReceivePair (fun _ => 0) 2 t [(3, [(3, 0)])]).1,
          t - 2 ≤ m.1 ∧ m.1 < t) ∧
        ∀ ms, (3, ms) ∈ (networkReceivePair (fun _ => 0) 2 (3 + 2) [(3, [(3, 0)])]).2 →
          ms = []) :=
  ⟨by unfold TaggedConn; decide, by unfold StepsSorted; decide, by decide,
    receive_bounded_delay_spec (fun _ => 0) 2 3 [(3, [(3, 0)])]
      (by unfold TaggedConn; decide) (by unfold StepsSorted; decide) (by decide)⟩

/-! ### C9: bootstrap idempotence

The node's vote graph: `recent_votes`, the forward index `vote_counts`
and the reverse index `rev_vote_counts`. The two `BTreeMap`s of maps are
embedded as total functions to voter sets, a missing key denoting the
empty set (`or_insert_with(BTreeSet::new)`). -/

structure NodeVoteState where
  recentVotes : Finset (Block × Block)
  voteCounts : Block → Block → Finset ℕ
  revVoteCounts : Block → Block → Finset ℕ

/-- `Node::add_vote`: record the vote as recent, extend the forward
entry with the new voters, then extend the reverse entry with a clone of
the updated forward entry. -/
def addVote (st : NodeVoteState) (vfrom vto : Block) (votedFor : Finset ℕ) : NodeVoteState :=
  { recentVotes := insert (vfrom, vto) st.recentVotes,
    voteCounts := fun a b =>
      if a = vfrom ∧ b = vto then st.voteCounts a b ∪ votedFor else st.voteCounts a b,
    revVoteCounts := fun a b =>
      if a = vto ∧ b = vfrom then
        st.revVoteCounts a b ∪ (st.voteCounts vfrom vto ∪ votedFor)
      else st.revVoteCounts a b }

/-- `Node::apply_bootstrap_msg`: fold `add_vote` over the payload's
`(from, to, voters)` entries, in the `BTreeMap` iteration order. -/
def applyBootstrapMsg (st : NodeVoteState) (msg : List (Block × Block × Finset ℕ)) :
    NodeVoteState :=
  msg.foldl (fun acc e => addVote acc e.1 e.2.1 e.2.2) st

/-- The `(from, to)` key of a payload entry; a `BTreeMap` of maps yields
each key exactly once. -/
def entryKey (e : Block × Block × Finset ℕ) : Block × Block := (e.1, e.2.1)

/-- The state already reflects a payload entry: its voters are recorded
forward, the forward entry is contained in the reverse entry, and the
vote is recent. -/
def Absorbed (st : NodeVoteState) (e : Block × Block × Finset ℕ) : Prop :=
  e.2.2 ⊆ st.voteCounts e.1 e.2.1 ∧
    st.voteCounts e.1 e.2.1 ⊆ st.revVoteCounts e.2.1 e.1 ∧
    (e.1, e.2.1) ∈ st.recentVotes

theorem addVote_absorbed_self (st : NodeVoteState) (e : Block × Block × Finset ℕ) :
    Absorbed (addVote st e.1 e.2.1 e.2.2) e := by
  unfold Absorbed addVote
  have hc : e.1 = e.1 ∧ e.2.1 = e.2.1 := ⟨rfl, rfl⟩
  have hc2 : e.2.1 = e.2.1 ∧ e.1 = e.1 := ⟨rfl, rfl⟩
  dsimp only
  refine ⟨?_, ?_, ?_⟩
  · rw [if_pos hc]
    exact Finset.subset_union_right
  · rw [if_pos hc, if_pos hc2]
    exact Finset.subset_union_right
  · exact Finset.mem_insert_self _ _

theorem addVote_absorbed_preserve (st : NodeVoteState) (e e' : Block × Block × Finset ℕ)
    (hne : entryKey e' ≠ entryKey e) (h : Absorbed st e) :
    Absorbed (addVote st e'.1 e'.2.1 e'.2.2) e := by
  unfold Absorbed addVote
  unfold entryKey at hne
  have hkey : ¬ (e.1 = e'.1 ∧ e.2.1 = e'.2.1) := by
    rintro ⟨h1, h2⟩
    exact hne (Prod.ext h1.symm h2.symm)
  have hkeyrev : ¬ (e.2.1 = e'.2.1 ∧ e.1 = e'.1) := fun hc => hkey ⟨hc.2, hc.1⟩
  refine ⟨?_, ?_, ?_⟩
  · simp only [if_neg hkey]
    exact h.1
  · simp only [if_neg hkey, if_neg hkeyrev]
    exact h.2.1
  · exact Finset.mem_insert_of_mem h.2.2

theorem addVote_id_of_absorbed (st : NodeVoteState) (e : Block × Block × Finset ℕ)
    (h : Absorbed st e) : addVote st e.1 e.2.1 e.2.2 = st := by
  obtain ⟨h1, h2, h3⟩ := h
  unfold addVote
  obtain ⟨rv, vc, rvc⟩ := st
  simp only [NodeVoteState.mk.injEq]
  refine ⟨Finset.insert_eq_self.mpr h3, ?_, ?_⟩
  · funext a b
    split
    · rename_i hab
      obtain ⟨ha, hb⟩ := hab
      subst ha
      subst hb
      exact Finset.union_eq_left.mpr h1
    · rfl
  · funext a b
    split
    · rename_i hab
      obtain ⟨ha, hb⟩ := hab
      subst ha
      subst hb
      rw [Finset.union_eq_left.mpr h1]
      exact Finset.union_eq_left.mpr h2
    · rfl

theorem applyBootstrapMsg_absorbed_preserve (msg : List (Block × Block × Finset ℕ)) :
    ∀ (st : NodeVoteState) (e : Block × Block × Finset ℕ), Absorbed st e →
      (∀ e' ∈ msg, entryKey e' ≠ entryKey e) → Absorbed (applyBootstrapMsg st msg) e := by
  induction msg with
  | nil =>
    intro st e h _
    exact h
  | cons e0 rest ih =>
    intro st e h hkeys
    have h0 : Absorbed (addVote st e0.1 e0.2.1 e0.2.2) e :=
      addVote_absorbed_preserve st e e0 (hkeys e0 (List.mem_cons_self _ _)) h
    exact ih (addVote st e0.1 e0.2.1 e0.2.2) e h0
      (fun e' he' => hkeys e' (List.mem_cons_of_mem _ he'))

theorem applyBootstrapMsg_all_absorbed (msg : List (Block × Block × Finset ℕ))
    (hdist : msg.Pairwise (fun a b => entryKey a ≠ entryKey b)) :
    ∀ st : NodeVoteState, ∀ e ∈ msg, Absorbed (applyBootstrapMsg st msg) e := by
  induction msg with
  | nil =>
    intro st e he
    exact absurd he (List.not_mem_nil e)
  | cons e0 rest ih =>
    intro st e he
    obtain ⟨hhead, hrest⟩ := List.pairwise_cons.mp hdist
    rcases List.mem_cons.mp he with he | he
    · subst he
      exact applyBootstrapMsg_absorbed_preserve rest (addVote st e.1 e.2.1 e.2.2) e
        (addVote_absorbed_self st e) (fun e' he' => (hhead e' he').symm)
    · exact ih hrest (addVote st e0.1 e0.2.1 e0.2.2) e he

theorem applyBootstrapMsg_id_of_all_absorbed (msg : List (Block × Block × Finset ℕ)) :
    ∀ st : NodeVoteState, (∀ e ∈ msg, Absorbed st e) → applyBootstrapMsg st msg = st := by
  induction msg with
  | nil =>
    intro st _
    rfl
  | cons e0 rest ih =>
    intro st h
    have h0 : addVote st e0.1 e0.2.1 e0.2.2 = st :=
      addVote_id_of_absorbed st e0 (h e0 (List.mem_cons_self _ _))
    show applyBootstrapMsg (addVote st e0.1 e0.2.1 e0.2.2) rest = st
    rw [h0]
    exact ih st (fun e he => h e (List.mem_cons_of_mem _ he))

/-- C9: applying the same bootstrap payload twice leaves the vote graph
(recent votes, forward and reverse indices) exactly as applying it once.
The payload lists each `(from, to)` edge once, as a map of maps does. -/
theorem apply_bootstrap_idempotent (st : NodeVoteState)
    (msg : List (Block × Block × Finset ℕ))
    (hdist : msg.Pairwise (fun a b => entryKey a ≠ entryKey b)) :
    applyBootstrapMsg (applyBootstrapMsg st msg) msg = applyBootstrapMsg st msg :=
  applyBootstrapMsg_id_of_all_absorbed msg (applyBootstrapMsg st msg)
    (applyBootstrapMsg_all_absorbed msg hdist st)

/-- A concrete two-edge bootstrap payload for the C9 witness. -/
def c9msg : List (Block × Block × Finset ℕ) :=
  [({ pfx := ⟨0, 0⟩, version := 0, members := {1} },
      { pfx := ⟨0, 0⟩, version := 1, members := {1, 2} }, {1}),
    ({ pfx := ⟨0, 0⟩, version := 1, members := {1, 2} },
      { pfx := ⟨0, 0⟩, version := 0, members := {1} }, {2})]

/-- The empty vote-graph state for the C9 witness. -/
def c9st : NodeVoteState := ⟨∅, fun _ _ => ∅, fun _ _ => ∅⟩

/-- Witness for C9 on a concrete two-edge payload and the empty state. -/
theorem apply_bootstrap_idempotent_witness :
    c9msg.Pairwise (fun a b => entryKey a ≠ entryKey b) ∧
      applyBootstrapMsg (applyBootstrapMsg c9st c9msg) c9msg = applyBootstrapMsg c9st c9msg :=
  ⟨by unfold c9msg entryKey; decide,
    apply_bootstrap_idempotent c9st c9msg (by unfold c9msg entryKey; decide)⟩

end Ewok
